import Mathlib

/-!
Shallow embedding of `src/bbp.rs` (Bread Buying Problem).

The Rust program reads a calendar length `total_days` and a list of
`(day, price)` sell events, sorts the events by `(day, price)`, registers
one provider per distinct price (duplicate prices are a fatal error),
expands every event into a per-provider boolean freshness row of the
availability matrix, picks the cheapest fresh provider for every day, and
finally run-length-compiles that daily assignment into a purchase plan,
draining an initial inventory of `INITIAL_BREAD` loaves first.

Machine integers (`u32`, `i32`, `usize`) are modelled as `Nat`/`Int`; the
one place the source performs a lossy cast (`qty_accum as Qty`, an
`i32`-to-`u32` reinterpretation) is modelled explicitly with `% 2^32`.
Fatal macros (`fatal!`), `assert!` and indexing panics are modelled as
`Except.error`/`Option.none` at the same program points.
-/

deriving instance DecidableEq for Except

namespace BBP

/-- `const BREAD_EXPIRATION: u32 = 30;` -/
def BREAD_EXPIRATION : Nat := 30

/-- `const INITIAL_BREAD: u32 = 10;` -/
def INITIAL_BREAD : Nat := 10

/-- `struct SellEvent { day: Day, price: Price }` -/
structure SellEvent where
  day : Nat
  price : Nat
deriving DecidableEq

/-- `struct EventList { day: Day, events: Vec<SellEvent> }` -/
structure EventList where
  day : Nat
  events : List SellEvent
deriving DecidableEq

/-- The total order implemented by the comparator closure passed to
`parsed_events.sort_by` in `make_environment`: lexicographic on
`(day, price)`. -/
def eventLE (a b : SellEvent) : Prop :=
  a.day < b.day ∨ (a.day = b.day ∧ a.price ≤ b.price)

instance : DecidableRel eventLE :=
  fun a b => inferInstanceAs (Decidable (a.day < b.day ∨ (a.day = b.day ∧ a.price ≤ b.price)))

instance : IsTotal SellEvent eventLE := by
  constructor
  intro a b
  unfold eventLE
  omega

instance : IsTrans SellEvent eventLE := by
  constructor
  intro a b c hab hbc
  unfold eventLE at hab hbc ⊢
  omega

instance : IsAntisymm SellEvent eventLE := by
  constructor
  intro a b hab hba
  obtain ⟨da, pa⟩ := a
  obtain ⟨db, pb⟩ := b
  unfold eventLE at hab hba
  simp only [SellEvent.mk.injEq]
  dsimp at hab hba
  omega

/-- `parsed_events.sort_by(...)` — the source uses Rust's stable `sort_by`
with the `(day, price)` comparator; any stable sort computes the same
list, so we model it with insertion sort over `eventLE`. -/
def sortEvents (events : List SellEvent) : List SellEvent :=
  List.insertionSort eventLE events

/-- `Providers::find_provider`, iterating the price vector with a running
index and returning the first index holding `price`. -/
def findProviderAux (ps : List Nat) (price : Nat) (idx : Nat) : Option Nat :=
  match ps with
  | [] => none
  | p :: rest => if p = price then some idx else findProviderAux rest price (idx + 1)

/-- `Providers::find_provider(&self, price) -> Option<usize>` -/
def findProvider (ps : List Nat) (price : Nat) : Option Nat :=
  findProviderAux ps price 0

/-- The fatal message produced by `Providers::add_provider` on a duplicate
price (sic: "Provide" is the source's spelling). -/
def dupProviderMsg (price : Nat) : String :=
  "Provide with price " ++ toString price ++ " already registered, invalid input"

/-- `Providers::add_provider(&mut self, price) -> usize`: fatal on a
duplicate price, otherwise appends the price and returns its index. -/
def addProvider (ps : List Nat) (price : Nat) : Except String (List Nat × Nat) :=
  match findProvider ps price with
  | some _ => Except.error (dupProviderMsg price)
  | none => Except.ok (ps ++ [price], ps.length)

/-- The `for e in &parsed_events { environment.providers.add_provider(e.price); }`
loop of `make_environment`, threading the provider vector. -/
def registerProviders (prices : List Nat) (ps : List Nat) : Except String (List Nat) :=
  match prices with
  | [] => Except.ok ps
  | p :: rest =>
    match addProvider ps p with
    | Except.error msg => Except.error msg
    | Except.ok (ps2, _) => registerProviders rest ps2

/-- `Providers::sort_by_price`: enumerate `(index, price)` pairs, stably
sort them by price, project the indices.  Modelled with the stable
insertion sort, matching Rust's stable `sort_by`. -/
def sndLE (a b : Nat × Nat) : Prop := a.2 ≤ b.2

instance : DecidableRel sndLE :=
  fun a b => inferInstanceAs (Decidable (a.2 ≤ b.2))

instance : IsTotal (Nat × Nat) sndLE := by
  constructor
  intro a b
  unfold sndLE
  omega

instance : IsTrans (Nat × Nat) sndLE := by
  constructor
  intro a b c hab hbc
  unfold sndLE at hab hbc ⊢
  omega

def sortByPrice (ps : List Nat) : List Nat :=
  (List.insertionSort sndLE ps.enum).map Prod.fst

/-- The grouping `while` loop of `make_environment`: the current `daily`
group absorbs events until the next event's day differs, at which point
the group is emitted and a new one begun.  The first event has already
been placed in `daily` (the loop body runs once before looking ahead). -/
def groupEventsAux : EventList → List SellEvent → List EventList
  | daily, [] => [daily]
  | daily, e2 :: rest =>
    if e2.day ≠ daily.day then
      daily :: groupEventsAux ⟨e2.day, [e2]⟩ rest
    else
      groupEventsAux ⟨daily.day, daily.events ++ [e2]⟩ rest

/-- `struct Environment { event_list, providers, avail_matrix }` -/
structure Environment where
  event_list : List EventList
  providers : List Nat
  avail_matrix : List (List Bool)
deriving DecidableEq

/-- `make_environment(parsed_events) -> Environment`: sort the events,
register every price as a provider (fatal on duplicates), group the
sorted events per day.  An empty event list would panic in the source
(`parsed_events[0]` out of bounds, unreachable because `parse_input`
rejects empty input); we model that as an error. -/
def makeEnvironment (parsedEvents : List SellEvent) : Except String Environment :=
  match sortEvents parsedEvents with
  | [] => Except.error "The calendar is empty"
  | e :: rest =>
    match registerProviders ((e :: rest).map SellEvent.price) [] with
    | Except.error msg => Except.error msg
    | Except.ok provs =>
      Except.ok { event_list := groupEventsAux ⟨e.day, [e]⟩ rest
                  providers := provs
                  avail_matrix := [] }

/-- `generate_empty_availability_vec` -/
def generateEmptyAvailabilityVec (numElts : Nat) : List Bool :=
  List.replicate numElts false

/-- The `for i in start_idx..limit { a[i] = true; }` loop of
`set_availability_at`, recursing on the remaining trip count
`limit - i`. -/
def setTrueRangeFuel : Nat → List Bool → Nat → List Bool
  | 0, a, _ => a
  | fuel + 1, a, i => setTrueRangeFuel fuel (a.set i true) (i + 1)

def setTrueRange (a : List Bool) (i limit : Nat) : List Bool :=
  setTrueRangeFuel (limit - i) a i

/-- `set_availability_at(a, start_idx, calendar_days)`: the write limit is
`start_idx + BREAD_EXPIRATION`, clipped down to `calendar_days`. -/
def setAvailabilityAt (a : List Bool) (startIdx : Nat) (calendarDays : Nat) : List Bool :=
  setTrueRange a startIdx
    (if startIdx + BREAD_EXPIRATION ≥ calendarDays then calendarDays
     else startIdx + BREAD_EXPIRATION)

/-- One inner iteration of `calculate_bread_availability`: look the
event's price up among the providers and write its freshness run into
that row.  The source's `.expect("Provider not found")` panic branch is
unreachable in the pipeline (providers were registered from the same
events); it leaves the matrix unchanged here. -/
def applyEvent (provs : List Nat) (calendarDays : Nat) (cal : List (List Bool))
    (e : SellEvent) : List (List Bool) :=
  match findProvider provs e.price with
  | some pidx => cal.set pidx (setAvailabilityAt (cal.getD pidx []) e.day calendarDays)
  | none => cal

/-- `calculate_bread_availability(environment, calendar_days) -> Calendar`:
one all-false row per provider, then every event (iterated per day group)
writes its freshness run. -/
def calculateBreadAvailability (environment : Environment) (calendarDays : Nat) :
    List (List Bool) :=
  let cal0 := environment.providers.map (fun _ => generateEmptyAvailabilityVec calendarDays)
  environment.event_list.foldl
    (fun cal dailyEvents => dailyEvents.events.foldl (applyEvent environment.providers calendarDays) cal)
    cal0

/-- One matrix entry, totalised: the source indexes `avail_matrix[pidx]`
and `.get(day).unwrap()`, both panicking out of range; in the pipeline
`pidx` is a registered provider index and `day < total_days`, so the
defaults are never consulted under the theorems' hypotheses. -/
def matrixEntry (cal : List (List Bool)) (p i : Nat) : Bool :=
  (cal.getD p []).getD i false

/-- `cheapest_bread_for_day(avail_matrix, prov_list, day_num)`: first
provider of `prov_list` (price-ascending) whose entry for the day is
`true`. -/
def cheapestBreadForDay (availMatrix : List (List Bool)) (provList : List Nat)
    (dayNum : Nat) : Option Nat :=
  match provList with
  | [] => none
  | pidx :: rest =>
    if matrixEntry availMatrix pidx dayNum then some pidx
    else cheapestBreadForDay availMatrix rest dayNum

/-- The `i32`-to-`u32` reinterpreting cast `qty_accum as Qty`. -/
def castToQty (q : Int) : Nat :=
  (q % (4294967296 : Int)).toNat

/-- The mutable state of the solution-building `while` loop in `solve`:
`solution`, `previous` and `qty_accum`. -/
structure SolveState where
  solution : List (Option Nat)
  previous : Option Nat
  qty : Int
deriving DecidableEq

/-- One iteration of the solution-building `while` loop of `solve`, for
current assignment `cur = minimum_providers[counter]`.  In the
`previous = Some` arm the two trailing statements (`qty_accum += 1;
previous = cur`) are shared by all sub-cases; in the `previous = None`
arm a negative accumulator consumes initial inventory without consulting
`cur`. -/
def solveStep (s : SolveState) (cur : Option Nat) : SolveState :=
  match s.previous with
  | some prevProv =>
    let s1 :=
      match cur with
      | some minProv =>
        if minProv = prevProv then s
        else { s with solution := s.solution ++ [some (castToQty s.qty)], qty := 0 }
      | none =>
        { s with solution := s.solution ++ [some (castToQty s.qty), none] }
    { solution := s1.solution, previous := cur, qty := s1.qty + 1 }
  | none =>
    if s.qty < 0 then
      { solution := s.solution, previous := s.previous, qty := s.qty + 1 }
    else
      match cur with
      | some _ => { solution := s.solution, previous := cur, qty := 1 }
      | none => { solution := s.solution ++ [none], previous := cur, qty := s.qty }

/-- `solve(total_days, environment) -> Purchases`.  The two `assert`s
(`event_list` non-empty, `total_days > 0`) are modelled as `none`; the
daily loop builds `minimum_providers` for days `0..total_days`, the
compile loop folds `solveStep` over it seeded with
`previous = minimum_providers[0]` and `qty_accum = -INITIAL_BREAD`, and a
final `Some(qty_accum)` flushes an open run. -/
def solve (totalDays : Nat) (environment : Environment) : Option (List (Option Nat)) :=
  if environment.event_list.length = 0 then none
  else if totalDays = 0 then none
  else
    let providers := sortByPrice environment.providers
    let minimumProviders :=
      (List.range totalDays).map (cheapestBreadForDay environment.avail_matrix providers)
    let init : SolveState :=
      { solution := [], previous := minimumProviders.getD 0 none
        qty := 0 - (INITIAL_BREAD : Int) }
    let final := minimumProviders.foldl solveStep init
    match final.previous with
    | some _ => some (final.solution ++ [some (castToQty final.qty)])
    | none => some final.solution

/-- The whole computation of `main` after parsing: build the environment,
fill in the availability matrix, solve.  Fatal paths become `none`. -/
def pipeline (totalDays : Nat) (events : List SellEvent) : Option (List (Option Nat)) :=
  match makeEnvironment events with
  | Except.error _ => none
  | Except.ok env0 =>
    solve totalDays { env0 with avail_matrix := calculateBreadAvailability env0 totalDays }

/-- The day-monotonicity check of `parse_input`: `prev_day` starts `None`
and is only ever assigned inside the `prev_day.is_some()` branch — an
exact rendering of the source's loop over the already-split event
strings. -/
def checkDayOrderLoop (prev : Option Nat) (events : List SellEvent) : Except String Unit :=
  match events with
  | [] => Except.ok ()
  | e :: rest =>
    match prev with
    | some pd =>
      if pd > e.day then
        Except.error "List of purchases doesn't have consecutive day number"
      else checkDayOrderLoop (some e.day) rest
    | none => checkDayOrderLoop none rest

/-- `parse_input`'s day-order validation over the parsed events, started
with `prev_day = None` as in the source. -/
def parseDayCheck (events : List SellEvent) : Except String Unit :=
  checkDayOrderLoop none events

/-- Sum of the quantities of all `Some(q)` entries of a purchase plan. -/
def sumSome (plan : List (Option Nat)) : Nat :=
  (plan.filterMap id).sum

/-- Number of `None` entries of a purchase plan. -/
def noneCount (plan : List (Option Nat)) : Nat :=
  (plan.filter Option.isNone).length

/-- Every quantity the plan orders is at least one loaf. -/
def planEntriesPos (plan : List (Option Nat)) : Prop :=
  ∀ n : Nat, some n ∈ plan → 1 ≤ n

/- ------------------------------------------------------------------ -/
/- Provider registration lemmas.                                      -/
/- ------------------------------------------------------------------ -/

theorem findProviderAux_eq_none (ps : List Nat) (price idx : Nat) :
    findProviderAux ps price idx = none ↔ price ∉ ps := by
  induction ps generalizing idx with
  | nil => simp [findProviderAux]
  | cons p rest ih =>
    by_cases h : p = price
    · simp [findProviderAux, h]
    · simp [findProviderAux, h, ih, Ne.symm h]

theorem findProvider_eq_none (ps : List Nat) (price : Nat) :
    findProvider ps price = none ↔ price ∉ ps :=
  findProviderAux_eq_none ps price 0

theorem findProviderAux_some_spec (ps : List Nat) (price idx k : Nat)
    (h : findProviderAux ps price idx = some k) :
    idx ≤ k ∧ k - idx < ps.length ∧ ps.getD (k - idx) 0 = price := by
  induction ps generalizing idx with
  | nil => simp [findProviderAux] at h
  | cons p rest ih =>
    by_cases hp : p = price
    · simp [findProviderAux, hp] at h
      subst h
      simpa using hp
    · simp only [findProviderAux, if_neg hp] at h
      obtain ⟨h1, h2, h3⟩ := ih (idx + 1) h
      refine ⟨by omega, by simp; omega, ?_⟩
      have hk : k - idx = (k - (idx + 1)) + 1 := by omega
      rw [hk]
      simpa using h3

theorem findProvider_some_spec (ps : List Nat) (price k : Nat)
    (h : findProvider ps price = some k) :
    k < ps.length ∧ ps.getD k 0 = price := by
  have := findProviderAux_some_spec ps price 0 k h
  simpa using this

theorem registerProviders_error_of_dup (prices : List Nat) :
    ∀ acc : List Nat, acc.Nodup → ¬ (acc ++ prices).Nodup →
      ∃ p, registerProviders prices acc = Except.error (dupProviderMsg p) := by
  induction prices with
  | nil =>
    intro acc hacc hdup
    simp at hdup
    exact absurd hacc hdup
  | cons p rest ih =>
    intro acc hacc hdup
    cases hfind : findProvider acc p with
    | some k =>
      exact ⟨p, by simp [registerProviders, addProvider, hfind]⟩
    | none =>
      have hp : p ∉ acc := (findProvider_eq_none acc p).mp hfind
      have hacc2 : (acc ++ [p]).Nodup := by
        simp [List.nodup_append, hacc, hp]
      have hdup2 : ¬ ((acc ++ [p]) ++ rest).Nodup := by
        intro hcon
        exact hdup (by simpa using hcon)
      obtain ⟨q, hq⟩ := ih (acc ++ [p]) hacc2 hdup2
      exact ⟨q, by simp [registerProviders, addProvider, hfind, hq]⟩

theorem registerProviders_ok_of_nodup (prices : List Nat) :
    ∀ acc : List Nat, (acc ++ prices).Nodup →
      registerProviders prices acc = Except.ok (acc ++ prices) := by
  induction prices with
  | nil =>
    intro acc _
    simp [registerProviders]
  | cons p rest ih =>
    intro acc h
    have hp : p ∉ acc := by
      intro hmem
      have := List.nodup_append.mp h
      exact absurd (List.mem_cons_self p rest) (this.2.2 hmem)
    have hfind : findProvider acc p = none := (findProvider_eq_none acc p).mpr hp
    have h2 : ((acc ++ [p]) ++ rest).Nodup := by simpa using h
    have := ih (acc ++ [p]) h2
    simp only [registerProviders, addProvider, hfind]
    rw [this]
    simp

/- ------------------------------------------------------------------ -/
/- Availability matrix lemmas.                                        -/
/- ------------------------------------------------------------------ -/

theorem setTrueRangeFuel_length (fuel : Nat) :
    ∀ (a : List Bool) (i : Nat), (setTrueRangeFuel fuel a i).length = a.length := by
  induction fuel with
  | zero => intro a i; rfl
  | succ fuel ih =>
    intro a i
    rw [show setTrueRangeFuel (fuel + 1) a i = setTrueRangeFuel fuel (a.set i true) (i + 1) from rfl,
      ih, List.length_set]

theorem setTrueRangeFuel_getElem? (fuel : Nat) :
    ∀ (a : List Bool) (i j : Nat),
      (setTrueRangeFuel fuel a i)[j]? =
        if i ≤ j ∧ j < i + fuel ∧ j < a.length then some true else a[j]? := by
  induction fuel with
  | zero =>
    intro a i j
    rw [show setTrueRangeFuel 0 a i = a from rfl, if_neg (by omega)]
  | succ fuel ih =>
    intro a i j
    rw [show setTrueRangeFuel (fuel + 1) a i = setTrueRangeFuel fuel (a.set i true) (i + 1) from rfl,
      ih, List.length_set]
    simp only [List.getElem?_set]
    by_cases hij : i = j
    · subst hij
      by_cases hlen : i < a.length
      · rw [if_neg (by omega), if_pos rfl, if_pos hlen, if_pos (by omega)]
      · rw [if_neg (by omega), if_pos rfl, if_neg hlen, if_neg (by omega),
          List.getElem?_eq_none (by omega)]
    · rw [if_neg hij]
      by_cases hc : i + 1 ≤ j ∧ j < i + 1 + fuel ∧ j < a.length
      · rw [if_pos hc, if_pos (by omega)]
      · rw [if_neg hc, if_neg (by omega)]

theorem setAvailabilityAt_length (a : List Bool) (startIdx calendarDays : Nat) :
    (setAvailabilityAt a startIdx calendarDays).length = a.length :=
  setTrueRangeFuel_length _ a startIdx

theorem setAvailabilityAt_getElem? (a : List Bool) (startIdx calendarDays j : Nat) :
    (setAvailabilityAt a startIdx calendarDays)[j]? =
      if startIdx ≤ j ∧ j < min (startIdx + BREAD_EXPIRATION) calendarDays ∧ j < a.length
      then some true else a[j]? := by
  unfold setAvailabilityAt setTrueRange
  rw [setTrueRangeFuel_getElem?]
  by_cases hc : startIdx ≤ j ∧ j < min (startIdx + BREAD_EXPIRATION) calendarDays ∧ j < a.length
  · rw [if_pos hc, if_pos (by split <;> omega)]
  · rw [if_neg hc, if_neg (by split <;> omega)]

/-- Bridge from `matrixEntry`'s `getD` form to `getElem?` form. -/
theorem matrixEntry_eq (cal : List (List Bool)) (p i : Nat) :
    matrixEntry cal p i = ((cal[p]?.getD [])[i]?).getD false := by
  unfold matrixEntry
  simp only [List.getD_eq_getElem?_getD]

theorem applyEvent_length (provs : List Nat) (calendarDays : Nat)
    (cal : List (List Bool)) (e : SellEvent) :
    (applyEvent provs calendarDays cal e).length = cal.length := by
  unfold applyEvent
  cases findProvider provs e.price <;> simp

theorem applyEvent_eq_of_none (provs : List Nat) (calendarDays : Nat)
    (cal : List (List Bool)) (e : SellEvent)
    (hfind : findProvider provs e.price = none) :
    applyEvent provs calendarDays cal e = cal := by
  unfold applyEvent
  rw [hfind]

theorem applyEvent_eq_of_some (provs : List Nat) (calendarDays : Nat)
    (cal : List (List Bool)) (e : SellEvent) (pidx : Nat)
    (hfind : findProvider provs e.price = some pidx) :
    applyEvent provs calendarDays cal e =
      cal.set pidx (setAvailabilityAt (cal.getD pidx []) e.day calendarDays) := by
  unfold applyEvent
  rw [hfind]

theorem applyEvent_rows (provs : List Nat) (calendarDays : Nat)
    (cal : List (List Bool)) (e : SellEvent)
    (hrows : ∀ r ∈ cal, r.length = calendarDays) :
    ∀ r ∈ applyEvent provs calendarDays cal e, r.length = calendarDays := by
  cases hfind : findProvider provs e.price with
  | none =>
    rw [applyEvent_eq_of_none provs calendarDays cal e hfind]
    exact hrows
  | some pidx =>
    rw [applyEvent_eq_of_some provs calendarDays cal e pidx hfind]
    intro r hr
    by_cases hp : pidx < cal.length
    · rcases List.mem_or_eq_of_mem_set hr with hmem | heq
      · exact hrows r hmem
      · subst heq
        rw [setAvailabilityAt_length, List.getD_eq_getElem?_getD,
          List.getElem?_eq_getElem hp]
        exact hrows _ (List.getElem_mem hp)
    · rw [List.set_eq_of_length_le (by omega)] at hr
      exact hrows r hr

/-- The effect of one event on one matrix entry. -/
theorem applyEvent_entry (provs : List Nat) (calendarDays : Nat)
    (cal : List (List Bool)) (e : SellEvent) (p i : Nat)
    (hrows : ∀ r ∈ cal, r.length = calendarDays)
    (hp : p < cal.length) (hi : i < calendarDays) :
    (matrixEntry (applyEvent provs calendarDays cal e) p i = true ↔
      matrixEntry cal p i = true ∨
        (findProvider provs e.price = some p ∧
          e.day ≤ i ∧ i < min (e.day + BREAD_EXPIRATION) calendarDays)) := by
  cases hfind : findProvider provs e.price with
  | none => simp [applyEvent_eq_of_none provs calendarDays cal e hfind]
  | some pidx =>
    rw [applyEvent_eq_of_some provs calendarDays cal e pidx hfind]
    by_cases hpe : pidx = p
    · subst hpe
      have hrow : cal[pidx]? = some (cal.getD pidx []) := by
        rw [List.getD_eq_getElem?_getD, List.getElem?_eq_getElem hp]
        rfl
      have hrowlen : (cal.getD pidx []).length = calendarDays := by
        rw [List.getD_eq_getElem?_getD, List.getElem?_eq_getElem hp]
        exact hrows _ (List.getElem_mem hp)
      have hset : matrixEntry
          (cal.set pidx (setAvailabilityAt (cal.getD pidx []) e.day calendarDays)) pidx i =
          ((setAvailabilityAt (cal.getD pidx []) e.day calendarDays)[i]?).getD false := by
        rw [matrixEntry_eq, List.getElem?_set, if_pos rfl, if_pos hp]
        rfl
      have hcal : matrixEntry cal pidx i = ((cal.getD pidx [])[i]?).getD false := by
        rw [matrixEntry_eq, hrow]
        rfl
      rw [hset, setAvailabilityAt_getElem?, hrowlen, hcal]
      by_cases hc : e.day ≤ i ∧ i < min (e.day + BREAD_EXPIRATION) calendarDays
      · rw [if_pos ⟨hc.1, hc.2, hi⟩]
        simp [hc]
      · rw [if_neg (by omega)]
        constructor
        · intro h
          exact Or.inl h
        · intro h
          rcases h with h | ⟨_, h2⟩
          · exact h
          · exact absurd h2 hc
    · have hne : matrixEntry
          (cal.set pidx (setAvailabilityAt (cal.getD pidx []) e.day calendarDays)) p i =
          matrixEntry cal p i := by
        rw [matrixEntry_eq, matrixEntry_eq, List.getElem?_set, if_neg hpe]
      rw [hne]
      constructor
      · intro h
        exact Or.inl h
      · intro h
        rcases h with h | ⟨hsome, _⟩
        · exact h
        · exact absurd (Option.some.inj hsome) hpe

theorem foldl_applyEvent_length (provs : List Nat) (calendarDays : Nat)
    (es : List SellEvent) :
    ∀ cal : List (List Bool),
      (es.foldl (applyEvent provs calendarDays) cal).length = cal.length := by
  induction es with
  | nil => intro cal; rfl
  | cons e rest ih =>
    intro cal
    rw [List.foldl_cons, ih, applyEvent_length]

theorem foldl_applyEvent_rows (provs : List Nat) (calendarDays : Nat)
    (es : List SellEvent) :
    ∀ cal : List (List Bool), (∀ r ∈ cal, r.length = calendarDays) →
      ∀ r ∈ es.foldl (applyEvent provs calendarDays) cal, r.length = calendarDays := by
  induction es with
  | nil => intro cal h; exact h
  | cons e rest ih =>
    intro cal h
    exact ih _ (applyEvent_rows provs calendarDays cal e h)

/-- Characterisation of a matrix entry after folding a list of events. -/
theorem foldl_applyEvent_entry (provs : List Nat) (calendarDays : Nat)
    (es : List SellEvent) :
    ∀ cal : List (List Bool), (∀ r ∈ cal, r.length = calendarDays) →
      ∀ p i : Nat, p < cal.length → i < calendarDays →
      (matrixEntry (es.foldl (applyEvent provs calendarDays) cal) p i = true ↔
        matrixEntry cal p i = true ∨
          ∃ e ∈ es, findProvider provs e.price = some p ∧
            e.day ≤ i ∧ i < min (e.day + BREAD_EXPIRATION) calendarDays) := by
  induction es with
  | nil =>
    intro cal _ p i _ _
    simp
  | cons e rest ih =>
    intro cal hrows p i hp hi
    rw [List.foldl_cons,
      ih _ (applyEvent_rows provs calendarDays cal e hrows) p i
        (by rw [applyEvent_length]; exact hp) hi,
      applyEvent_entry provs calendarDays cal e p i hrows hp hi]
    constructor
    · intro h
      rcases h with (h | h) | ⟨e2, he2, h2⟩
      · exact Or.inl h
      · exact Or.inr ⟨e, List.mem_cons_self e rest, h⟩
      · exact Or.inr ⟨e2, List.mem_cons_of_mem e he2, h2⟩
    · intro h
      rcases h with h | ⟨e2, he2, h2⟩
      · exact Or.inl (Or.inl h)
      · rcases List.mem_cons.mp he2 with heq | hmem
        · subst heq
          exact Or.inl (Or.inr h2)
        · exact Or.inr ⟨e2, hmem, h2⟩

/-- Folding per-day groups is folding the flat event list: the grouping
loop of `make_environment` loses and reorders nothing. -/
theorem foldl_groupEventsAux {β : Type} (f : β → SellEvent → β) (rest : List SellEvent) :
    ∀ (daily : EventList) (c : β),
      (groupEventsAux daily rest).foldl (fun acc dl => dl.events.foldl f acc) c =
        (daily.events ++ rest).foldl f c := by
  induction rest with
  | nil =>
    intro daily c
    simp [groupEventsAux]
  | cons e2 rest ih =>
    intro daily c
    by_cases hday : e2.day ≠ daily.day
    · rw [groupEventsAux, if_pos hday, List.foldl_cons, ih]
      simp [List.foldl_append]
    · rw [groupEventsAux, if_neg hday, ih]
      simp [List.foldl_append]

theorem registerProviders_ok_shape (prices : List Nat) :
    ∀ acc res : List Nat, registerProviders prices acc = Except.ok res →
      res = acc ++ prices := by
  induction prices with
  | nil =>
    intro acc res h
    simp [registerProviders] at h
    simp [h]
  | cons p rest ih =>
    intro acc res h
    cases hfind : findProvider acc p with
    | some k => simp [registerProviders, addProvider, hfind] at h
    | none =>
      simp only [registerProviders, addProvider, hfind] at h
      rw [ih (acc ++ [p]) res h]
      simp

/-- Inversion of a successful `make_environment`: the environment is the
grouped sorted events with the sorted prices as providers and an empty
matrix. -/
theorem makeEnvironment_ok_inv (events : List SellEvent) (env : Environment)
    (h : makeEnvironment events = Except.ok env) :
    ∃ e0 rest, sortEvents events = e0 :: rest ∧
      env = { event_list := groupEventsAux ⟨e0.day, [e0]⟩ rest
              providers := (e0 :: rest).map SellEvent.price
              avail_matrix := [] } := by
  cases hsort : sortEvents events with
  | nil =>
    simp only [makeEnvironment, hsort] at h
    exact Except.noConfusion h
  | cons e0 rest =>
    cases hreg : registerProviders ((e0 :: rest).map SellEvent.price) [] with
    | error msg =>
      simp only [makeEnvironment, hsort, hreg] at h
      exact Except.noConfusion h
    | ok provs =>
      simp only [makeEnvironment, hsort, hreg] at h
      have hshape := registerProviders_ok_shape ((e0 :: rest).map SellEvent.price) [] provs hreg
      simp only [List.nil_append] at hshape
      subst hshape
      exact ⟨e0, rest, rfl, (Except.ok.inj h).symm⟩

/-- The base matrix of `calculate_bread_availability` is all-false. -/
theorem matrixEntry_base (provs : List Nat) (calendarDays p i : Nat) :
    matrixEntry (provs.map (fun _ => generateEmptyAvailabilityVec calendarDays)) p i = false := by
  rw [matrixEntry_eq, List.getElem?_map]
  cases hp : provs[p]? with
  | none => simp
  | some v =>
    simp only [Option.map_some', Option.getD_some, generateEmptyAvailabilityVec,
      List.getElem?_replicate]
    split <;> simp

/-- Characterisation of the built availability matrix entry `(p, i)` in
terms of the original (unsorted) events. -/
theorem calculate_entry_char (events : List SellEvent) (e0 : SellEvent)
    (rest : List SellEvent) (hsort : sortEvents events = e0 :: rest)
    (totalDays p i : Nat) (hp : p < (e0 :: rest).length) (hi : i < totalDays) :
    (matrixEntry
        (calculateBreadAvailability
          { event_list := groupEventsAux ⟨e0.day, [e0]⟩ rest
            providers := (e0 :: rest).map SellEvent.price
            avail_matrix := [] } totalDays) p i = true ↔
      ∃ ev ∈ events, findProvider ((e0 :: rest).map SellEvent.price) ev.price = some p ∧
        ev.day ≤ i ∧ i < min (ev.day + BREAD_EXPIRATION) totalDays) := by
  have hperm : (sortEvents events).Perm events := List.perm_insertionSort eventLE events
  rw [hsort] at hperm
  unfold calculateBreadAvailability
  simp only
  rw [foldl_groupEventsAux]
  have hbase : ∀ r ∈ (((e0 :: rest).map SellEvent.price).map
      (fun _ => generateEmptyAvailabilityVec totalDays)), r.length = totalDays := by
    intro r hr
    rcases List.mem_map.mp hr with ⟨x, _, hx⟩
    rw [← hx]
    exact List.length_replicate totalDays false
  rw [foldl_applyEvent_entry _ totalDays _ _ hbase p i (by simpa using hp) hi]
  rw [matrixEntry_base]
  simp only [Bool.false_eq_true, false_or]
  constructor
  · rintro ⟨ev, hev, hrest⟩
    exact ⟨ev, hperm.mem_iff.mp (by simpa using hev), hrest⟩
  · rintro ⟨ev, hev, hrest⟩
    exact ⟨ev, by simpa using hperm.mem_iff.mpr hev, hrest⟩

/- ------------------------------------------------------------------ -/
/- Daily cheapest-provider selector lemmas.                           -/
/- ------------------------------------------------------------------ -/

theorem cheapest_cons (matrix : List (List Bool)) (day q : Nat) (rest : List Nat) :
    cheapestBreadForDay matrix (q :: rest) day =
      if matrixEntry matrix q day then some q else cheapestBreadForDay matrix rest day := rfl

theorem cheapest_some_spec (matrix : List (List Bool)) (day : Nat) :
    ∀ (provList : List Nat) (p : Nat),
      cheapestBreadForDay matrix provList day = some p →
      p ∈ provList ∧ matrixEntry matrix p day = true := by
  intro provList
  induction provList with
  | nil => intro p h; exact absurd h (by simp [cheapestBreadForDay])
  | cons q rest ih =>
    intro p h
    rw [cheapest_cons] at h
    by_cases hq : matrixEntry matrix q day
    · rw [if_pos hq] at h
      cases h
      exact ⟨List.mem_cons_self q rest, hq⟩
    · rw [if_neg hq] at h
      obtain ⟨h1, h2⟩ := ih p h
      exact ⟨List.mem_cons_of_mem q h1, h2⟩

theorem cheapest_none_iff (matrix : List (List Bool)) (day : Nat) :
    ∀ provList : List Nat,
      (cheapestBreadForDay matrix provList day = none ↔
        ∀ q ∈ provList, matrixEntry matrix q day = false) := by
  intro provList
  induction provList with
  | nil => simp [cheapestBreadForDay]
  | cons q rest ih =>
    rw [cheapest_cons]
    by_cases hq : matrixEntry matrix q day
    · simp [if_pos hq, hq]
    · simp only [if_neg hq, ih]
      constructor
      · intro h r hr
        rcases List.mem_cons.mp hr with heq | hmem
        · subst heq
          exact Bool.eq_false_iff.mpr hq
        · exact h r hmem
      · intro h r hr
        exact h r (List.mem_cons_of_mem q hr)

/-- On a price-sorted provider list, the selected provider is cheapest:
any strictly cheaper provider in the list is not fresh that day. -/
theorem cheapest_min (matrix : List (List Bool)) (day : Nat) (priceOf : Nat → Nat) :
    ∀ provList : List Nat,
      provList.Pairwise (fun a b => priceOf a ≤ priceOf b) →
      ∀ p, cheapestBreadForDay matrix provList day = some p →
      ∀ q ∈ provList, priceOf q < priceOf p → matrixEntry matrix q day = false := by
  intro provList
  induction provList with
  | nil => intro _ p h; exact absurd h (by simp [cheapestBreadForDay])
  | cons r rest ih =>
    intro hpw p h q hq hlt
    rw [cheapest_cons] at h
    by_cases hr : matrixEntry matrix r day
    · rw [if_pos hr] at h
      cases h
      rcases List.mem_cons.mp hq with heq | hmem
      · subst heq
        omega
      · have := (List.pairwise_cons.mp hpw).1 q hmem
        omega
    · rw [if_neg hr] at h
      rcases List.mem_cons.mp hq with heq | hmem
      · subst heq
        exact Bool.eq_false_iff.mpr hr
      · exact ih (List.pairwise_cons.mp hpw).2 p h q hmem hlt

theorem sortByPrice_perm (ps : List Nat) :
    (sortByPrice ps).Perm (List.range ps.length) := by
  unfold sortByPrice
  have h2 := (List.perm_insertionSort sndLE ps.enum).map Prod.fst
  rw [List.enum_map_fst] at h2
  exact h2

theorem mem_sortByPrice (ps : List Nat) (q : Nat) :
    q ∈ sortByPrice ps ↔ q < ps.length := by
  rw [(sortByPrice_perm ps).mem_iff, List.mem_range]

theorem sorted_enum_snd (ps : List Nat) (x : Nat × Nat)
    (hx : x ∈ List.insertionSort sndLE ps.enum) : ps.getD x.1 0 = x.2 := by
  have hmem : x ∈ ps.enum := (List.perm_insertionSort sndLE ps.enum).mem_iff.mp hx
  have := List.mem_enum_iff_getElem?.mp hmem
  rw [List.getD_eq_getElem?_getD, this]
  rfl

theorem sortByPrice_pairwise (ps : List Nat) :
    (sortByPrice ps).Pairwise (fun a b => ps.getD a 0 ≤ ps.getD b 0) := by
  unfold sortByPrice
  rw [List.pairwise_map]
  have hsorted : (List.insertionSort sndLE ps.enum).Pairwise sndLE :=
    List.sorted_insertionSort sndLE ps.enum
  refine List.Pairwise.imp_of_mem ?_ hsorted
  intro a b ha hb hab
  rw [sorted_enum_snd ps a ha, sorted_enum_snd ps b hb]
  exact hab

/-- `calculate_bread_availability` on a grouped environment equals the
flat fold over the sorted events. -/
theorem calculate_eq_flat (e0 : SellEvent) (rest : List SellEvent) (provs : List Nat)
    (m : List (List Bool)) (totalDays : Nat) :
    calculateBreadAvailability
        { event_list := groupEventsAux ⟨e0.day, [e0]⟩ rest
          providers := provs, avail_matrix := m } totalDays =
      (e0 :: rest).foldl (applyEvent provs totalDays)
        (provs.map (fun _ => generateEmptyAvailabilityVec totalDays)) := by
  unfold calculateBreadAvailability
  simp only
  rw [foldl_groupEventsAux]
  rfl

/- ------------------------------------------------------------------ -/
/- Plan compiler invariant.                                           -/
/- ------------------------------------------------------------------ -/

theorem sumSome_append (l1 l2 : List (Option Nat)) :
    sumSome (l1 ++ l2) = sumSome l1 + sumSome l2 := by
  unfold sumSome
  rw [List.filterMap_append, List.sum_append]

theorem noneCount_append (l1 l2 : List (Option Nat)) :
    noneCount (l1 ++ l2) = noneCount l1 + noneCount l2 := by
  unfold noneCount
  rw [List.filter_append, List.length_append]

theorem planEntriesPos_append (l1 l2 : List (Option Nat))
    (h1 : planEntriesPos l1) (h2 : planEntriesPos l2) : planEntriesPos (l1 ++ l2) := by
  intro n hn
  rcases List.mem_append.mp hn with h | h
  · exact h1 n h
  · exact h2 n h

theorem planEntriesPos_nil : planEntriesPos [] := by
  intro n hn
  simp at hn

theorem castToQty_of_bounds (q : Int) (h0 : 0 ≤ q) (h1 : q < 4294967296) :
    castToQty q = q.toNat := by
  unfold castToQty
  rw [Int.emod_eq_of_lt h0 h1]

/-- Step equation: `previous = None`, negative accumulator (drain). -/
theorem solveStep_eq_drain (s : SolveState) (cur : Option Nat)
    (hprev : s.previous = none) (h : s.qty < 0) :
    solveStep s cur = ⟨s.solution, none, s.qty + 1⟩ := by
  unfold solveStep
  rw [hprev]
  simp only [if_pos h]

/-- Step equation: `previous = None`, non-negative accumulator, fresh
provider available. -/
theorem solveStep_eq_restart (s : SolveState) (m : Nat)
    (hprev : s.previous = none) (h : ¬ s.qty < 0) :
    solveStep s (some m) = ⟨s.solution, some m, 1⟩ := by
  unfold solveStep
  rw [hprev]
  simp only [if_neg h]

/-- Step equation: `previous = None`, non-negative accumulator, stale day. -/
theorem solveStep_eq_stale (s : SolveState)
    (hprev : s.previous = none) (h : ¬ s.qty < 0) :
    solveStep s none = ⟨s.solution ++ [none], none, s.qty⟩ := by
  unfold solveStep
  rw [hprev]
  simp only [if_neg h]

/-- Step equation: same provider continues. -/
theorem solveStep_eq_same (s : SolveState) (p : Nat)
    (hprev : s.previous = some p) :
    solveStep s (some p) = ⟨s.solution, some p, s.qty + 1⟩ := by
  unfold solveStep
  rw [hprev]
  simp

/-- Step equation: provider switch — close the run, restart at one. -/
theorem solveStep_eq_switch (s : SolveState) (p m : Nat)
    (hprev : s.previous = some p) (hne : m ≠ p) :
    solveStep s (some m) =
      ⟨s.solution ++ [some (castToQty s.qty)], some m, 0 + 1⟩ := by
  unfold solveStep
  rw [hprev]
  simp [hne]

/-- Step equation: run ends on a stale day — close the run, emit `None`. -/
theorem solveStep_eq_close (s : SolveState) (p : Nat)
    (hprev : s.previous = some p) :
    solveStep s none =
      ⟨s.solution ++ [some (castToQty s.qty), none], none, s.qty + 1⟩ := by
  unfold solveStep
  rw [hprev]

/-- The invariant of the solution-building loop after `k` processed days,
for inputs whose day-0 assignment is `None` (every event day is at least
1, so the loop starts draining).  Three phases: draining initial
inventory (empty plan), inventory exhausted with no open run, and an open
run of length `qty`. -/
def SolveInv (k : Nat) (s : SolveState) : Prop :=
  planEntriesPos s.solution ∧
  ((s.previous = none ∧ s.qty < 0 ∧ s.solution = [] ∧
      s.qty = (k : Int) - (INITIAL_BREAD : Int)) ∨
   (s.previous = none ∧ 0 ≤ s.qty ∧
      sumSome s.solution + noneCount s.solution + INITIAL_BREAD = k) ∨
   ((∃ p, s.previous = some p) ∧ 1 ≤ s.qty ∧ s.qty ≤ (k : Int) ∧
      sumSome s.solution + noneCount s.solution + INITIAL_BREAD + s.qty.toNat = k))

theorem solveInv_mk (k : Nat) (sol : List (Option Nat)) (prev : Option Nat) (qty : Int) :
    SolveInv k ⟨sol, prev, qty⟩ ↔
      planEntriesPos sol ∧
      ((prev = none ∧ qty < 0 ∧ sol = [] ∧ qty = (k : Int) - (INITIAL_BREAD : Int)) ∨
       (prev = none ∧ 0 ≤ qty ∧ sumSome sol + noneCount sol + INITIAL_BREAD = k) ∨
       ((∃ p, prev = some p) ∧ 1 ≤ qty ∧ qty ≤ (k : Int) ∧
          sumSome sol + noneCount sol + INITIAL_BREAD + qty.toNat = k)) :=
  Iff.rfl

theorem sumSome_single_some (n : Nat) : sumSome [some n] = n := by simp [sumSome]

theorem sumSome_single_none : sumSome [none] = 0 := by simp [sumSome]

theorem noneCount_single_some (n : Nat) : noneCount [some n] = 0 := by simp [noneCount]

theorem noneCount_single_none : noneCount [none] = 1 := by simp [noneCount]

theorem solveInv_step (k : Nat) (s : SolveState) (cur : Option Nat)
    (hk : (k : Int) < 4294967296) (hinv : SolveInv k s) :
    SolveInv (k + 1) (solveStep s cur) := by
  obtain ⟨hpos, hcase⟩ := hinv
  have h10 : INITIAL_BREAD = 10 := rfl
  rcases hcase with ⟨hprev, hneg, hsol, hqty⟩ | ⟨hprev, hnn, hsum⟩ | ⟨⟨p, hprev⟩, h1, h2, hsum⟩
  · rw [solveStep_eq_drain s cur hprev hneg, solveInv_mk]
    refine ⟨hpos, ?_⟩
    by_cases h : s.qty + 1 < 0
    · exact Or.inl ⟨rfl, h, hsol, by push_cast; omega⟩
    · refine Or.inr (Or.inl ⟨rfl, by omega, ?_⟩)
      rw [hsol]
      have hk10 : k + 1 = INITIAL_BREAD := by
        have : (k : Int) + 1 = (INITIAL_BREAD : Int) := by omega
        exact_mod_cast this
      simp [sumSome, noneCount, hk10]
  · cases cur with
    | some m =>
      rw [solveStep_eq_restart s m hprev (by omega), solveInv_mk]
      refine ⟨hpos, Or.inr (Or.inr ⟨⟨m, rfl⟩, le_refl 1, by push_cast; omega, ?_⟩)⟩
      simp only [Int.toNat_one]
      omega
    | none =>
      rw [solveStep_eq_stale s hprev (by omega), solveInv_mk]
      refine ⟨planEntriesPos_append _ _ hpos ?_, Or.inr (Or.inl ⟨rfl, hnn, ?_⟩)⟩
      · intro n hn
        simp at hn
      · rw [sumSome_append, noneCount_append, sumSome_single_none, noneCount_single_none]
        omega
  · have hcast : castToQty s.qty = s.qty.toNat :=
      castToQty_of_bounds s.qty (by omega) (by omega)
    have hentry : planEntriesPos [some (castToQty s.qty)] := by
      intro n hn
      simp only [List.mem_singleton, Option.some.injEq] at hn
      rw [hn, hcast]
      omega
    cases cur with
    | some m =>
      by_cases hm : m = p
      · subst hm
        rw [solveStep_eq_same s m hprev, solveInv_mk]
        refine ⟨hpos, Or.inr (Or.inr ⟨⟨m, rfl⟩, by omega, by push_cast; omega, by omega⟩)⟩
      · rw [solveStep_eq_switch s p m hprev hm, solveInv_mk]
        refine ⟨planEntriesPos_append _ _ hpos hentry,
          Or.inr (Or.inr ⟨⟨m, rfl⟩, by omega, by push_cast; omega, ?_⟩)⟩
        rw [sumSome_append, noneCount_append, sumSome_single_some, noneCount_single_some,
          hcast]
        omega
    | none =>
      rw [solveStep_eq_close s p hprev, solveInv_mk]
      refine ⟨planEntriesPos_append _ _ hpos ?_, Or.inr (Or.inl ⟨rfl, by omega, ?_⟩)⟩
      · intro n hn
        simp only [List.mem_cons, List.mem_singleton, Option.some.injEq] at hn
        rcases hn with hn | hn
        · rw [hn, hcast]
          omega
        · exact absurd hn (by simp)
      · have hsplit : ([some (castToQty s.qty), none] : List (Option Nat)) =
            [some (castToQty s.qty)] ++ [none] := rfl
        rw [sumSome_append, noneCount_append, hsplit, sumSome_append, noneCount_append,
          sumSome_single_some, noneCount_single_some, sumSome_single_none,
          noneCount_single_none, hcast]
        omega

theorem solveInv_foldl (B : Nat) (hB : (B : Int) < 4294967296)
    (assignment : List (Option Nat)) :
    ∀ (k : Nat) (s : SolveState), k + assignment.length ≤ B → SolveInv k s →
      SolveInv (k + assignment.length) (assignment.foldl solveStep s) := by
  induction assignment with
  | nil =>
    intro k s _ hinv
    simpa using hinv
  | cons cur rest ih =>
    intro k s hle hinv
    simp only [List.length_cons] at hle
    have hk : (k : Int) < 4294967296 := by
      have : k < B := by omega
      omega
    have hstep := solveInv_step k s cur hk hinv
    have := ih (k + 1) (solveStep s cur) (by omega) hstep
    simp only [List.length_cons, List.foldl_cons]
    have harith : k + (rest.length + 1) = (k + 1) + rest.length := by omega
    rw [harith]
    exact this


theorem sortEvents_ne_nil (events : List SellEvent) (hne : events ≠ []) :
    sortEvents events ≠ [] := by
  intro h
  have hperm := List.perm_insertionSort eventLE events
  rw [show List.insertionSort eventLE events = sortEvents events from rfl, h] at hperm
  exact hne hperm.symm.eq_nil

theorem makeEnvironment_ok_of (events : List SellEvent) (e0 : SellEvent) (rest : List SellEvent)
    (hsort : sortEvents events = e0 :: rest)
    (hnodup : (events.map SellEvent.price).Nodup) :
    makeEnvironment events = Except.ok
      { event_list := groupEventsAux ⟨e0.day, [e0]⟩ rest
        providers := (e0 :: rest).map SellEvent.price
        avail_matrix := [] } := by
  have hperm : (sortEvents events).Perm events := List.perm_insertionSort eventLE events
  have hnodup2 : ((e0 :: rest).map SellEvent.price).Nodup := by
    rw [← hsort]
    exact ((hperm.map SellEvent.price).nodup_iff).mpr hnodup
  have hreg := registerProviders_ok_of_nodup ((e0 :: rest).map SellEvent.price) []
    (by simpa using hnodup2)
  simp only [makeEnvironment, hsort, hreg, List.nil_append]

theorem groupEventsAux_ne_nil (rest : List SellEvent) :
    ∀ daily, groupEventsAux daily rest ≠ [] := by
  induction rest with
  | nil =>
    intro daily
    simp [groupEventsAux]
  | cons e2 rest ih =>
    intro daily
    unfold groupEventsAux
    split
    · exact List.cons_ne_nil _ _
    · exact ih _

theorem assignment_day0_none (events : List SellEvent) (e0 : SellEvent) (rest : List SellEvent)
    (hsort : sortEvents events = e0 :: rest)
    (hdays : ∀ e ∈ events, 1 ≤ e.day) (totalDays : Nat) (hT : totalDays ≠ 0) :
    cheapestBreadForDay
      (calculateBreadAvailability
        { event_list := groupEventsAux ⟨e0.day, [e0]⟩ rest
          providers := (e0 :: rest).map SellEvent.price
          avail_matrix := [] } totalDays)
      (sortByPrice ((e0 :: rest).map SellEvent.price)) 0 = none := by
  rw [cheapest_none_iff]
  intro q hq
  have hqlt : q < ((e0 :: rest).map SellEvent.price).length := (mem_sortByPrice _ q).mp hq
  cases hM : matrixEntry
      (calculateBreadAvailability
        { event_list := groupEventsAux ⟨e0.day, [e0]⟩ rest
          providers := (e0 :: rest).map SellEvent.price
          avail_matrix := [] } totalDays) q 0 with
  | false => rfl
  | true =>
    have hchar := calculate_entry_char events e0 rest hsort totalDays q 0
      (by simpa using hqlt) (by omega)
    obtain ⟨ev, hev, _, hd, _⟩ := hchar.mp hM
    have := hdays ev hev
    omega

theorem solve_eq_mk (totalDays : Nat) (el : List EventList) (provs : List Nat)
    (M : List (List Bool)) (hne : el.length ≠ 0) (hT : totalDays ≠ 0) :
    solve totalDays ⟨el, provs, M⟩ =
      (match (((List.range totalDays).map
          (cheapestBreadForDay M (sortByPrice provs))).foldl solveStep
          ⟨[], ((List.range totalDays).map
            (cheapestBreadForDay M (sortByPrice provs))).getD 0 none,
            0 - (INITIAL_BREAD : Int)⟩).previous with
       | some _ => some ((((List.range totalDays).map
          (cheapestBreadForDay M (sortByPrice provs))).foldl solveStep
          ⟨[], ((List.range totalDays).map
            (cheapestBreadForDay M (sortByPrice provs))).getD 0 none,
            0 - (INITIAL_BREAD : Int)⟩).solution ++
          [some (castToQty (((List.range totalDays).map
          (cheapestBreadForDay M (sortByPrice provs))).foldl solveStep
          ⟨[], ((List.range totalDays).map
            (cheapestBreadForDay M (sortByPrice provs))).getD 0 none,
            0 - (INITIAL_BREAD : Int)⟩).qty)])
       | none => some ((((List.range totalDays).map
          (cheapestBreadForDay M (sortByPrice provs))).foldl solveStep
          ⟨[], ((List.range totalDays).map
            (cheapestBreadForDay M (sortByPrice provs))).getD 0 none,
            0 - (INITIAL_BREAD : Int)⟩).solution)) := by
  unfold solve
  rw [if_neg hne, if_neg hT]

/-- Master specification of the pipeline on valid inputs: it produces a
plan whose ordered quantities are positive, and — once the calendar is at
least as long as the initial inventory — the quantities, the stale days
and the initial inventory account for every day exactly once. -/
theorem pipeline_spec (totalDays : Nat) (events : List SellEvent)
    (hne : events ≠ []) (hdays : ∀ e ∈ events, 1 ≤ e.day)
    (hnodup : (events.map SellEvent.price).Nodup)
    (hT : 1 ≤ totalDays) (hT32 : totalDays < 4294967296) :
    ∃ plan, pipeline totalDays events = some plan ∧ planEntriesPos plan ∧
      (INITIAL_BREAD ≤ totalDays →
        sumSome plan + noneCount plan + INITIAL_BREAD = totalDays) := by
  have h10 : INITIAL_BREAD = 10 := rfl
  cases hsort : sortEvents events with
  | nil => exact absurd hsort (sortEvents_ne_nil events hne)
  | cons e0 rest =>
    have hok := makeEnvironment_ok_of events e0 rest hsort hnodup
    have hpipe : pipeline totalDays events = solve totalDays
        { event_list := groupEventsAux ⟨e0.day, [e0]⟩ rest
          providers := (e0 :: rest).map SellEvent.price
          avail_matrix := calculateBreadAvailability
            { event_list := groupEventsAux ⟨e0.day, [e0]⟩ rest
              providers := (e0 :: rest).map SellEvent.price
              avail_matrix := [] } totalDays } := by
      simp only [pipeline, hok]
    have hgrp : (groupEventsAux (⟨e0.day, [e0]⟩ : EventList) rest).length ≠ 0 := by
      intro hzero
      exact groupEventsAux_ne_nil rest ⟨e0.day, [e0]⟩ (List.length_eq_zero.mp hzero)
    have hT0 : totalDays ≠ 0 := by omega
    have hsolve := solve_eq_mk totalDays (groupEventsAux ⟨e0.day, [e0]⟩ rest)
      ((e0 :: rest).map SellEvent.price)
      (calculateBreadAvailability
        { event_list := groupEventsAux ⟨e0.day, [e0]⟩ rest
          providers := (e0 :: rest).map SellEvent.price
          avail_matrix := [] } totalDays) hgrp hT0
    rw [hpipe, hsolve]
    have hday0 := assignment_day0_none events e0 rest hsort hdays totalDays hT0
    have hget0 : (((List.range totalDays).map
        (cheapestBreadForDay
          (calculateBreadAvailability
            { event_list := groupEventsAux ⟨e0.day, [e0]⟩ rest
              providers := (e0 :: rest).map SellEvent.price
              avail_matrix := [] } totalDays)
          (sortByPrice ((e0 :: rest).map SellEvent.price)))).getD 0 none) = none := by
      rw [List.getD_eq_getElem?_getD, List.getElem?_map, List.getElem?_range (by omega)]
      simp only [Option.map_some', Option.getD_some]
      exact hday0
    have hlen : (((List.range totalDays).map
        (cheapestBreadForDay
          (calculateBreadAvailability
            { event_list := groupEventsAux ⟨e0.day, [e0]⟩ rest
              providers := (e0 :: rest).map SellEvent.price
              avail_matrix := [] } totalDays)
          (sortByPrice ((e0 :: rest).map SellEvent.price)))).length) = totalDays := by
      simp
    have hinit : SolveInv 0 ⟨[], (((List.range totalDays).map
        (cheapestBreadForDay
          (calculateBreadAvailability
            { event_list := groupEventsAux ⟨e0.day, [e0]⟩ rest
              providers := (e0 :: rest).map SellEvent.price
              avail_matrix := [] } totalDays)
          (sortByPrice ((e0 :: rest).map SellEvent.price)))).getD 0 none),
        0 - (INITIAL_BREAD : Int)⟩ := by
      rw [hget0, solveInv_mk]
      refine ⟨planEntriesPos_nil, Or.inl ⟨rfl, by simp [h10], rfl, by simp⟩⟩
    have hfold := solveInv_foldl totalDays (by exact_mod_cast hT32) _ 0 _
      (by rw [hlen]; omega) hinit
    rw [Nat.zero_add, hlen] at hfold
    rcases hfin : (((List.range totalDays).map
        (cheapestBreadForDay
          (calculateBreadAvailability
            { event_list := groupEventsAux ⟨e0.day, [e0]⟩ rest
              providers := (e0 :: rest).map SellEvent.price
              avail_matrix := [] } totalDays)
          (sortByPrice ((e0 :: rest).map SellEvent.price)))).foldl solveStep
        ⟨[], (((List.range totalDays).map
          (cheapestBreadForDay
            (calculateBreadAvailability
              { event_list := groupEventsAux ⟨e0.day, [e0]⟩ rest
                providers := (e0 :: rest).map SellEvent.price
                avail_matrix := [] } totalDays)
            (sortByPrice ((e0 :: rest).map SellEvent.price)))).getD 0 none),
          0 - (INITIAL_BREAD : Int)⟩) with ⟨sol, prev, qty⟩
    rw [hfin] at hfold
    obtain ⟨hpos, hcase⟩ := (solveInv_mk _ _ _ _).mp hfold
    cases prev with
    | some p =>
      have hrun : 1 ≤ qty ∧ qty ≤ (totalDays : Int) ∧
          sumSome sol + noneCount sol + INITIAL_BREAD + qty.toNat = totalDays := by
        rcases hcase with ⟨hcon, _⟩ | ⟨hcon, _⟩ | ⟨_, h1, h2, hsum⟩
        · exact absurd hcon (by simp)
        · exact absurd hcon (by simp)
        · exact ⟨h1, h2, hsum⟩
      have hcast : castToQty qty = qty.toNat := by
        apply castToQty_of_bounds qty (by omega)
        have : (totalDays : Int) < 4294967296 := by exact_mod_cast hT32
        omega
      refine ⟨sol ++ [some (castToQty qty)], rfl, ?_, ?_⟩
      · refine planEntriesPos_append _ _ hpos ?_
        intro n hn
        simp only [List.mem_singleton, Option.some.injEq] at hn
        rw [hn, hcast]
        omega
      · intro h10T
        rw [sumSome_append, noneCount_append, sumSome_single_some, noneCount_single_some,
          hcast]
        omega
    | none =>
      refine ⟨sol, rfl, hpos, ?_⟩
      intro h10T
      rcases hcase with ⟨_, hneg, hsol, hqty⟩ | ⟨_, _, hsum⟩ | ⟨⟨p, hp⟩, _⟩
      · exfalso
        rw [hqty] at hneg
        have : (totalDays : Int) < (INITIAL_BREAD : Int) := by omega
        have : totalDays < INITIAL_BREAD := by exact_mod_cast this
        omega
      · exact hsum
      · exact absurd hp (by simp)

/- ------------------------------------------------------------------ -/
/- Claim theorems: concrete scenarios and local step behaviour.       -/
/- ------------------------------------------------------------------ -/

/-- C1: for `total_days = 60` and events `[(10,200),(15,100),(35,500),(50,30)]`,
the full pipeline (sort/group events, build availability matrix, compile
plan) produces exactly the purchase plan `[Some 5, Some 30, Some 5, Some 10]`. -/
theorem C1_scenarioA_plan :
    pipeline 60 [⟨10, 200⟩, ⟨15, 100⟩, ⟨35, 500⟩, ⟨50, 30⟩] =
      some [some 5, some 30, some 5, some 10] := by
  decide

/-- C7: for the single event `(day = 5, price = 100)` and `total_days = 40`,
the pipeline produces exactly `[Some 25, None, None, None, None, None]`
(one `None` per stale day 35–39). -/
theorem C7_scenarioB_plan :
    pipeline 40 [⟨5, 100⟩] = some [some 25, none, none, none, none, none] := by
  decide

/-- C8: in a compiler state with `previous = None` and `accumulatedQty < 0`,
one step increments the accumulator by one, emits nothing, and leaves
`previous = None` — for every value of the current day's assignment `cur`. -/
theorem C8_drain_step (s : SolveState) (cur : Option Nat)
    (hprev : s.previous = none) (hqty : s.qty < 0) :
    solveStep s cur = { solution := s.solution, previous := none, qty := s.qty + 1 } := by
  unfold solveStep
  rw [hprev]
  simp only [if_pos hqty]

/-- Witness for C8 at a concrete state and assignment. -/
theorem C8_drain_step_witness :
    solveStep ⟨[], none, -10⟩ (some 3) = ⟨[], none, -9⟩ :=
  C8_drain_step ⟨[], none, -10⟩ (some 3) rfl (by decide)

/-- C3 (evidence of the code bug): the day-monotonicity validation of
`parse_input` accepts every event list — `prev_day` starts `None` and is
only assigned inside the `is_some` branch, so the non-monotonicity check
is dead code and no input ever reaches the fatal error. -/
theorem C3_day_check_never_fails (events : List SellEvent) :
    parseDayCheck events = Except.ok () := by
  unfold parseDayCheck
  induction events with
  | nil => rfl
  | cons e rest ih => simpa [checkDayOrderLoop] using ih

/-- C2 (counterexample): for the valid input `total_days = 1`,
events `[(1,100)]` (day ≥ 1, distinct prices), the emitted plan is `[]`,
and `sumSome + INITIAL_BREAD = total_days - noneCount` fails (`10 ≠ 1`):
the conservation law is broken whenever `total_days < INITIAL_BREAD`,
because the loop ends while initial inventory is still draining. -/
theorem C2_conservation_counterexample :
    pipeline 1 [⟨1, 100⟩] = some [] ∧
      ¬ (sumSome [] + INITIAL_BREAD = 1 - noneCount ([] : List (Option Nat))) := by
  constructor
  · decide
  · decide

/-- C6: an event list containing two distinct sell events with the same
price makes provider registration fail with the duplicate-provider fatal
error, so `make_environment` never returns an environment. -/
theorem C6_duplicate_price_fatal (events : List SellEvent) (i j : Nat)
    (hi : i < events.length) (hj : j < events.length) (hij : i ≠ j)
    (hprice : (events.get ⟨i, hi⟩).price = (events.get ⟨j, hj⟩).price) :
    ∃ p, makeEnvironment events = Except.error (dupProviderMsg p) := by
  have hlen : (events.map SellEvent.price).length = events.length := by simp
  have hdup : ¬ (events.map SellEvent.price).Nodup := by
    intro hnodup
    have hinj := List.Nodup.get_inj_iff hnodup
        (i := ⟨i, by omega⟩) (j := ⟨j, by omega⟩)
    have : (⟨i, by omega⟩ : Fin (events.map SellEvent.price).length) = ⟨j, by omega⟩ := by
      apply hinj.mp
      simpa [List.get_eq_getElem, List.getElem_map] using hprice
    exact hij (by simpa using congrArg Fin.val this)
  cases hsort : sortEvents events with
  | nil =>
    have hperm := List.perm_insertionSort eventLE events
    rw [show List.insertionSort eventLE events = sortEvents events from rfl, hsort] at hperm
    have : events = [] := hperm.symm.eq_nil
    subst this
    simp at hi
  | cons e rest =>
    have hperm : (sortEvents events).Perm events := List.perm_insertionSort eventLE events
    have hdup2 : ¬ ((e :: rest).map SellEvent.price).Nodup := by
      intro hcon
      rw [← hsort] at hcon
      exact hdup (((hperm.map SellEvent.price).nodup_iff).mp hcon)
    obtain ⟨p, hp⟩ := registerProviders_error_of_dup ((e :: rest).map SellEvent.price) []
      List.nodup_nil (by simpa using hdup2)
    refine ⟨p, ?_⟩
    simp only [makeEnvironment, hsort, hp]

/-- Witness for C6: the events `(1,100)` and `(2,100)` share a price. -/
theorem C6_duplicate_price_fatal_witness :
    ∃ p, makeEnvironment [⟨1, 100⟩, ⟨2, 100⟩] = Except.error (dupProviderMsg p) :=
  C6_duplicate_price_fatal [⟨1, 100⟩, ⟨2, 100⟩] 0 1 (by decide) (by decide)
    (by decide) (by decide)

/-- C9: permuting the input event list leaves the computed plan unchanged
(the claim's hypotheses — all days at least 1 and pairwise-distinct
prices — are carried, though the sort's antisymmetry already forces the
sorted lists, and hence the whole pipeline, to coincide). -/
theorem C9_permutation_invariance (totalDays : Nat) (events1 events2 : List SellEvent)
    (hperm : events1.Perm events2)
    (_hdays : ∀ e ∈ events1, 1 ≤ e.day)
    (_hnodup : (events1.map SellEvent.price).Nodup) :
    pipeline totalDays events1 = pipeline totalDays events2 := by
  have hsorted : sortEvents events1 = sortEvents events2 := by
    apply List.eq_of_perm_of_sorted (r := eventLE)
      (((List.perm_insertionSort eventLE events1).trans hperm).trans
        (List.perm_insertionSort eventLE events2).symm)
    · exact List.sorted_insertionSort eventLE events1
    · exact List.sorted_insertionSort eventLE events2
  simp only [pipeline, makeEnvironment, hsorted]

/-- Witness for C9 on a concrete permutation of Scenario A's events. -/
theorem C9_permutation_invariance_witness :
    pipeline 60 [⟨10, 200⟩, ⟨15, 100⟩, ⟨35, 500⟩, ⟨50, 30⟩] =
      pipeline 60 [⟨50, 30⟩, ⟨35, 500⟩, ⟨15, 100⟩, ⟨10, 200⟩] :=
  C9_permutation_invariance 60 _ _ (by decide) (by decide) (by decide)

/-- C5: for an event `e` of the input with provider index `p`, the built
availability matrix has `providerCount` rows of `total_days` entries, and
row `p` holds `true` at day `i` exactly when
`e.day ≤ i < min (e.day + BREAD_EXPIRATION) total_days` (all other
entries of the row are `false`). -/
theorem C5_matrix_characterisation (totalDays : Nat) (events : List SellEvent)
    (env : Environment) (henv : makeEnvironment events = Except.ok env)
    (hnodup : (events.map SellEvent.price).Nodup)
    (e : SellEvent) (he : e ∈ events) (p : Nat)
    (hp : findProvider env.providers e.price = some p)
    (i : Nat) (hi : i < totalDays) :
    (calculateBreadAvailability env totalDays).length = env.providers.length ∧
    (∀ r ∈ calculateBreadAvailability env totalDays, r.length = totalDays) ∧
    (matrixEntry (calculateBreadAvailability env totalDays) p i = true ↔
      e.day ≤ i ∧ i < min (e.day + BREAD_EXPIRATION) totalDays) := by
  obtain ⟨e0, rest, hsort, henveq⟩ := makeEnvironment_ok_inv events env henv
  subst henveq
  simp only at hp ⊢
  have hspec := findProvider_some_spec _ _ _ hp
  have hbase : ∀ r ∈ (((e0 :: rest).map SellEvent.price).map
      (fun _ => generateEmptyAvailabilityVec totalDays)), r.length = totalDays := by
    intro r hr
    rcases List.mem_map.mp hr with ⟨x, _, hx⟩
    rw [← hx]
    exact List.length_replicate totalDays false
  refine ⟨?_, ?_, ?_⟩
  · rw [calculate_eq_flat, foldl_applyEvent_length]
    simp
  · rw [calculate_eq_flat]
    exact foldl_applyEvent_rows _ _ _ _ hbase
  · rw [calculate_entry_char events e0 rest hsort totalDays p i (by simpa using hspec.1) hi]
    constructor
    · rintro ⟨ev, hev, hfind, hrange⟩
      have hevp : ((e0 :: rest).map SellEvent.price).getD p 0 = ev.price :=
        (findProvider_some_spec _ _ _ hfind).2
      have hep : ((e0 :: rest).map SellEvent.price).getD p 0 = e.price := hspec.2
      have : ev = e := List.inj_on_of_nodup_map hnodup hev he (by omega)
      subst this
      exact hrange
    · intro hrange
      exact ⟨e, he, hp, hrange⟩

/-- Witness for C5: Scenario A's event `(10,200)` is provider 0; day 15
lies inside its freshness window. -/
theorem C5_matrix_characterisation_witness :
    (calculateBreadAvailability
        ⟨[⟨10, [⟨10, 200⟩]⟩, ⟨15, [⟨15, 100⟩]⟩, ⟨35, [⟨35, 500⟩]⟩, ⟨50, [⟨50, 30⟩]⟩],
          [200, 100, 500, 30], []⟩ 60).length = ([200, 100, 500, 30] : List Nat).length ∧
    (∀ r ∈ calculateBreadAvailability
        ⟨[⟨10, [⟨10, 200⟩]⟩, ⟨15, [⟨15, 100⟩]⟩, ⟨35, [⟨35, 500⟩]⟩, ⟨50, [⟨50, 30⟩]⟩],
          [200, 100, 500, 30], []⟩ 60, r.length = 60) ∧
    (matrixEntry (calculateBreadAvailability
        ⟨[⟨10, [⟨10, 200⟩]⟩, ⟨15, [⟨15, 100⟩]⟩, ⟨35, [⟨35, 500⟩]⟩, ⟨50, [⟨50, 30⟩]⟩],
          [200, 100, 500, 30], []⟩ 60) 0 15 = true ↔
      (10 : Nat) ≤ 15 ∧ 15 < min (10 + BREAD_EXPIRATION) 60) :=
  C5_matrix_characterisation 60 [⟨10, 200⟩, ⟨15, 100⟩, ⟨35, 500⟩, ⟨50, 30⟩]
    ⟨[⟨10, [⟨10, 200⟩]⟩, ⟨15, [⟨15, 100⟩]⟩, ⟨35, [⟨35, 500⟩]⟩, ⟨50, [⟨50, 30⟩]⟩],
      [200, 100, 500, 30], []⟩
    (by decide) (by decide) ⟨10, 200⟩ (by decide) 0 (by decide) 15 (by decide)

/-- C4: on any day, if the daily selector picks `Some p` then provider `p`
is fresh that day and no strictly cheaper provider is; it returns `None`
exactly when no provider is fresh that day. -/
theorem C4_selector_cheapest (totalDays : Nat) (events : List SellEvent)
    (env : Environment) (_henv : makeEnvironment events = Except.ok env)
    (i : Nat) (_hi : i < totalDays) :
    (∀ p, cheapestBreadForDay (calculateBreadAvailability env totalDays)
        (sortByPrice env.providers) i = some p →
      matrixEntry (calculateBreadAvailability env totalDays) p i = true ∧
        ∀ q, q < env.providers.length →
          env.providers.getD q 0 < env.providers.getD p 0 →
          matrixEntry (calculateBreadAvailability env totalDays) q i = false) ∧
    (cheapestBreadForDay (calculateBreadAvailability env totalDays)
        (sortByPrice env.providers) i = none ↔
      ∀ q, q < env.providers.length →
        matrixEntry (calculateBreadAvailability env totalDays) q i = false) := by
  constructor
  · intro p hp
    refine ⟨(cheapest_some_spec _ _ _ _ hp).2, ?_⟩
    intro q hq hlt
    exact cheapest_min (calculateBreadAvailability env totalDays) i
      (fun x => env.providers.getD x 0) (sortByPrice env.providers)
      (sortByPrice_pairwise env.providers) p hp q
      ((mem_sortByPrice env.providers q).mpr hq) hlt
  · rw [cheapest_none_iff]
    constructor
    · intro h q hq
      exact h q ((mem_sortByPrice env.providers q).mpr hq)
    · intro h q hq
      exact h q ((mem_sortByPrice env.providers q).mp hq)

/-- Witness for C4 on Scenario A's environment at day 15. -/
theorem C4_selector_cheapest_witness :
    (∀ p, cheapestBreadForDay
        (calculateBreadAvailability
          ⟨[⟨10, [⟨10, 200⟩]⟩, ⟨15, [⟨15, 100⟩]⟩, ⟨35, [⟨35, 500⟩]⟩, ⟨50, [⟨50, 30⟩]⟩],
            [200, 100, 500, 30], []⟩ 60)
        (sortByPrice [200, 100, 500, 30]) 15 = some p →
      matrixEntry (calculateBreadAvailability
          ⟨[⟨10, [⟨10, 200⟩]⟩, ⟨15, [⟨15, 100⟩]⟩, ⟨35, [⟨35, 500⟩]⟩, ⟨50, [⟨50, 30⟩]⟩],
            [200, 100, 500, 30], []⟩ 60) p 15 = true ∧
        ∀ q, q < ([200, 100, 500, 30] : List Nat).length →
          ([200, 100, 500, 30] : List Nat).getD q 0 < ([200, 100, 500, 30] : List Nat).getD p 0 →
          matrixEntry (calculateBreadAvailability
              ⟨[⟨10, [⟨10, 200⟩]⟩, ⟨15, [⟨15, 100⟩]⟩, ⟨35, [⟨35, 500⟩]⟩, ⟨50, [⟨50, 30⟩]⟩],
                [200, 100, 500, 30], []⟩ 60) q 15 = false) ∧
    (cheapestBreadForDay
        (calculateBreadAvailability
          ⟨[⟨10, [⟨10, 200⟩]⟩, ⟨15, [⟨15, 100⟩]⟩, ⟨35, [⟨35, 500⟩]⟩, ⟨50, [⟨50, 30⟩]⟩],
            [200, 100, 500, 30], []⟩ 60)
        (sortByPrice [200, 100, 500, 30]) 15 = none ↔
      ∀ q, q < ([200, 100, 500, 30] : List Nat).length →
        matrixEntry (calculateBreadAvailability
            ⟨[⟨10, [⟨10, 200⟩]⟩, ⟨15, [⟨15, 100⟩]⟩, ⟨35, [⟨35, 500⟩]⟩, ⟨50, [⟨50, 30⟩]⟩],
              [200, 100, 500, 30], []⟩ 60) q 15 = false) :=
  C4_selector_cheapest 60 [⟨10, 200⟩, ⟨15, 100⟩, ⟨35, 500⟩, ⟨50, 30⟩]
    ⟨[⟨10, [⟨10, 200⟩]⟩, ⟨15, [⟨15, 100⟩]⟩, ⟨35, [⟨35, 500⟩]⟩, ⟨50, [⟨50, 30⟩]⟩],
      [200, 100, 500, 30], []⟩
    (by decide) 15 (by decide)

/-- C2 (amended): for every valid input (non-empty events, all days at
least 1, distinct prices, `total_days` in `u32` range) with
`total_days ≥ INITIAL_BREAD`, the plan satisfies
`sumSome + INITIAL_BREAD = total_days - noneCount`.  (Without
`total_days ≥ INITIAL_BREAD` the loop can end mid-drain and the law
fails, see the counterexample.) -/
theorem C2_conservation_amended (totalDays : Nat) (events : List SellEvent)
    (hne : events ≠ []) (hdays : ∀ e ∈ events, 1 ≤ e.day)
    (hnodup : (events.map SellEvent.price).Nodup)
    (hIB : INITIAL_BREAD ≤ totalDays) (hT32 : totalDays < 4294967296) :
    ∃ plan, pipeline totalDays events = some plan ∧
      sumSome plan + INITIAL_BREAD = totalDays - noneCount plan := by
  have h10 : INITIAL_BREAD = 10 := rfl
  obtain ⟨plan, hp, _, hsum⟩ := pipeline_spec totalDays events hne hdays hnodup
    (by omega) hT32
  refine ⟨plan, hp, ?_⟩
  have := hsum hIB
  omega

/-- Witness for the amended C2 on Scenario A. -/
theorem C2_conservation_amended_witness :
    ∃ plan, pipeline 60 [⟨10, 200⟩, ⟨15, 100⟩, ⟨35, 500⟩, ⟨50, 30⟩] = some plan ∧
      sumSome plan + INITIAL_BREAD = 60 - noneCount plan :=
  C2_conservation_amended 60 [⟨10, 200⟩, ⟨15, 100⟩, ⟨35, 500⟩, ⟨50, 30⟩]
    (by decide) (by decide) (by decide) (by decide) (by decide)

/-- C10: on every valid input (total_days ≥ 1 in the `i32`-safe range,
every event day ≥ 1, distinct prices, non-empty events) every `Some q`
the compiler emits has `q ≥ 1`: the accumulator is strictly positive at
each emission point, so the `i32`-to-`u32` cast never wraps a negative
value. -/
theorem C10_positive_quantities (totalDays : Nat) (events : List SellEvent)
    (hne : events ≠ []) (hdays : ∀ e ∈ events, 1 ≤ e.day)
    (hnodup : (events.map SellEvent.price).Nodup)
    (hT : 1 ≤ totalDays) (hT31 : totalDays < 2147483648) :
    ∃ plan, pipeline totalDays events = some plan ∧ ∀ n, some n ∈ plan → 1 ≤ n := by
  obtain ⟨plan, hp, hpos, _⟩ := pipeline_spec totalDays events hne hdays hnodup hT
    (by omega)
  exact ⟨plan, hp, hpos⟩

/-- Witness for C10 on Scenario A. -/
theorem C10_positive_quantities_witness :
    ∃ plan, pipeline 60 [⟨10, 200⟩, ⟨15, 100⟩, ⟨35, 500⟩, ⟨50, 30⟩] = some plan ∧
      ∀ n, some n ∈ plan → 1 ≤ n :=
  C10_positive_quantities 60 [⟨10, 200⟩, ⟨15, 100⟩, ⟨35, 500⟩, ⟨50, 30⟩]
    (by decide) (by decide) (by decide) (by decide) (by decide)

end BBP
